import Mathlib

/-!
Shallow embedding of the Employee Sentiment notebook core
(monthly sentiment aggregation, monthly top-3 ranking, and the rolling
30-day flight-risk scan), together with proofs settling the frozen claims.

Timestamps are modelled at day granularity as days since 1970-01-01
(an unparsable timestamp, pandas NaT, is modelled as none).  Pandas float
NaN values arising from means over empty data are modelled as none.
-/

namespace EmployeeSentiment

/-- Sentiment labels produced by the upstream classifier. -/
inductive Label where
  | Positive
  | Negative
  | Neutral
  deriving DecidableEq

/-- One row of the message table: sender, parsed timestamp (none when the
timestamp could not be parsed, pandas NaT), sentiment label, message body
(none when the body is missing). -/
structure Record where
  employee : String
  date : Option Int
  label : Label
  body : Option String
  deriving DecidableEq

/-- Civil calendar date (year, month, day) of a day number counted from
1970-01-01, following the standard days-to-civil algorithm; this models
what pandas to_period reads off a day-granularity timestamp. -/
def civilFromDays (z0 : Int) : Int × Int × Int :=
  let z := z0 + 719468
  let era := Int.fdiv z 146097
  let doe := z - era * 146097
  let yoe := Int.fdiv (doe - Int.fdiv doe 1460 + Int.fdiv doe 36524 - Int.fdiv doe 146096) 365
  let y := yoe + era * 400
  let doy := doe - (365 * yoe + Int.fdiv yoe 4 - Int.fdiv yoe 100)
  let mp := Int.fdiv (5 * doy + 2) 153
  let d := doy - Int.fdiv (153 * mp + 2) 5 + 1
  let m := if mp < 10 then mp + 3 else mp - 9
  (if m ≤ 2 then y + 1 else y, m, d)

/-- MonthKey of a day number: the (year, month) pair, modelling
df.date.dt.to_period with monthly frequency. -/
def monthKey (z : Int) : Int × Int :=
  ((civilFromDays z).1, (civilFromDays z).2.1)

/-- Grouping key (employee, month) of a record, none when the timestamp is
null; pandas groupby drops rows whose grouping key contains NaT. -/
def recKey (r : Record) : Option (String × Int × Int) :=
  r.date.map (fun d => (r.employee, monthKey d))

/-- Per-message score contribution, from the score_mapper cell. -/
def score_mapper : Label → Int
  | .Positive => 1
  | .Negative => -1
  | .Neutral => 0

/-- One output row of the monthly aggregation. -/
structure MonthlyScore where
  employee : String
  month : Int × Int
  score : Int
  deriving DecidableEq

/-- The monthly_scores table: one row per distinct (employee, month) key of
a record with a parsable timestamp, carrying the sum of that group's score
contributions; models df.groupby with employee and month, summing score. -/
def monthly_scores (df : List Record) : List MonthlyScore :=
  ((df.filterMap recKey).dedup).map (fun k =>
    { employee := k.1, month := k.2,
      score := ((df.filter (fun r => decide (recKey r = some k))).map
        (fun r => score_mapper r.label)).sum })

/-- Ranking direction of the two ranking cells. -/
inductive Direction where
  | best
  | worst

/-- Sort key of the top_3_pos cell: month ascending, score descending,
employee ascending (score descending is encoded as negated score
ascending), compared lexicographically. -/
def keyBest (s : MonthlyScore) : Int ×ₗ Int ×ₗ Int ×ₗ String :=
  toLex (s.month.1, toLex (s.month.2, toLex (-s.score, s.employee)))

/-- Sort key of the top_3_neg cell: month ascending, score ascending,
employee ascending, compared lexicographically. -/
def keyWorst (s : MonthlyScore) : Int ×ₗ Int ×ₗ Int ×ₗ String :=
  toLex (s.month.1, toLex (s.month.2, toLex (s.score, s.employee)))

/-- Row ordering used by sort_values for the requested direction. -/
def leDir : Direction → MonthlyScore → MonthlyScore → Prop
  | .best, a, b => keyBest a ≤ keyBest b
  | .worst, a, b => keyWorst a ≤ keyWorst b

instance (d : Direction) : DecidableRel (leDir d) := by
  cases d <;> exact fun a b => inferInstanceAs (Decidable (_ ≤ _))

instance (d : Direction) : IsTrans MonthlyScore (leDir d) := by
  cases d <;> exact ⟨fun _ _ _ hab hbc => le_trans hab hbc⟩

instance (d : Direction) : IsTotal MonthlyScore (leDir d) := by
  cases d <;> exact ⟨fun a b => le_total _ _⟩

/-- Number of rows of a given month in a list of monthly scores. -/
def countMonth (m : Int × Int) (l : List MonthlyScore) : Nat :=
  (l.filter (fun s => decide (s.month = m))).length

/-- groupHead k seen l keeps, of the rows of l, the first k rows of each
month group (seen records the rows already passed); this models
pandas GroupBy.head applied after the sort. -/
def groupHead (k : Nat) (seen : List MonthlyScore) : List MonthlyScore → List MonthlyScore
  | [] => []
  | r :: rest =>
    if countMonth r.month seen < k then r :: groupHead k (r :: seen) rest
    else groupHead k (r :: seen) rest

/-- The ranker: sort by the direction's key and keep the first k rows per
month; the notebook invokes it with k = 3 in both directions. -/
def rank_top (k : Nat) (d : Direction) (scores : List MonthlyScore) : List MonthlyScore :=
  groupHead k [] (List.insertionSort (leDir d) scores)

/-- Window membership test of the flight-risk loop: the code computes
(dates i - d).days and requires it between 0 and the window width; any
comparison against NaT (none) is false, as NaN comparisons are in pandas. -/
def diffOk (w : Int) (a b : Option Int) : Bool :=
  match a, b with
  | some x, some y => decide (x - y ≤ w ∧ 0 ≤ x - y)
  | _, _ => false

/-- The bounded-lookback window count of the flight-risk loop at index i:
matches are counted only among the eleven most recent records
dates[max(0,i-10)..i]. -/
def windowCount (w : Int) (dates : List (Option Int)) (i : Nat) : Nat :=
  (((dates.take (i + 1)).drop (i - 10)).filter (fun d => diffOk w (dates.getD i none) d)).length

/-- An employee's scan decision: some index of the dates list reaches the
threshold (the code breaks at the first such index, which does not change
the decision). -/
def flaggedEmp (w t : Int) (dates : List (Option Int)) : Bool :=
  (List.range dates.length).any (fun i => decide (t ≤ (windowCount w dates i : Int)))

/-- The df_neg frame: rows labelled Negative. -/
def df_neg (df : List Record) : List Record :=
  df.filter (fun r => decide (r.label = Label.Negative))

/-- The per-employee dates list of the flight-risk loop, built from the
already Negative-filtered frame: sort_values orders each employee's valid
dates ascending and places NaT rows last. -/
def negDsCore (negs : List Record) (e : String) : List (Option Int) :=
  ((List.insertionSort (fun a b : Int => a ≤ b)
      ((negs.filter (fun r => decide (r.employee = e))).filterMap (fun r => r.date))).map some)
    ++ (((negs.filter (fun r => decide (r.employee = e))).filter
        (fun r => decide (r.date = none))).map (fun _ => (none : Option Int)))

/-- Flight-risk detection over an already Negative-filtered frame: every
employee of the frame is scanned and the flagged ones collected; the final
list(set(..)) of the code makes the output order immaterial, dedup keeps
each employee once. -/
def flight_riskCore (w t : Int) (negs : List Record) : List String :=
  ((negs.map (fun r => r.employee)).dedup).filter (fun e => flaggedEmp w t (negDsCore negs e))

/-- The flight_risk computation of the notebook (the notebook fixes w = 30
and t = 4; the parameters generalize those two literals). -/
def flight_risk (w t : Int) (df : List Record) : List String :=
  flight_riskCore w t (df_neg df)

/-- One row of the features table of the modelling cell. -/
structure FeatureRow where
  employee : String
  month : Int × Int
  score : Int
  avg_length : Option ℚ
  msg_count : Nat
  deriving DecidableEq

/-- The records of a given (employee, month) group. -/
def groupRecords (df : List Record) (k : String × Int × Int) : List Record :=
  df.filter (fun r => decide (recKey r = some k))

/-- The features table: per (employee, month) group the score sum, the mean
of msg_length (str.len of the body, NaN for a missing body; the mean skips
NaN values and is itself NaN, modelled none, when the group contributes no
lengths at all), and the count aggregation over body, which counts
non-null bodies only. -/
def features (df : List Record) : List FeatureRow :=
  ((df.filterMap recKey).dedup).map (fun k =>
    { employee := k.1, month := k.2,
      score := ((groupRecords df k).map (fun r => score_mapper r.label)).sum,
      avg_length :=
        if ((groupRecords df k).filterMap
            (fun r => r.body.map (fun b => b.length))).length = 0 then none
        else some
          ((((groupRecords df k).filterMap
              (fun r => r.body.map (fun b => b.length))).map
            (Nat.cast : Nat → ℚ)).sum
          / (((groupRecords df k).filterMap
              (fun r => r.body.map (fun b => b.length))).length : ℚ)),
      msg_count := ((groupRecords df k).filter
        (fun r => decide (r.body ≠ none))).length })

/-- Record predicate of the C1 statement: the record is Negative-labelled
and belongs to employee e. -/
def isNegOf (e : String) (r : Record) : Bool :=
  decide (r.label = Label.Negative ∧ r.employee = e)

/-- Record predicate of the C1 statement: the record has a parsed
timestamp lying in the inclusive day window from a to a + w. -/
def inWin (a w : Int) (r : Record) : Bool :=
  match r.date with
  | some d => decide (a ≤ d ∧ d ≤ a + w)
  | none => false

/-- DenseW w V holds when some four consecutive entries of V span at most
w days; on a sorted dates list this is exactly the existence of a window
of width w holding at least four dates. -/
def DenseW (w : Int) (V : List Int) : Prop :=
  ∃ i, i + 3 < V.length ∧ V.getD (i + 3) 0 - V.getD i 0 ≤ w

/-- Four consecutive entries of V starting at index i. -/
def quadOf (V : List Int) (i : Nat) : List Int :=
  (V.take (i + 4)).drop i

/-- Modelled from the spec: the lo-pointer advance of the two-pointer
sliding-window scan of section 4.3 (the source has no such loop; it uses
the bounded lookback of windowCount instead): advance lo while the window
anchored at hi excludes the date at lo. -/
def tpAdvance (w : Int) (L : List Int) (hi : Nat) (lo : Nat) : Nat :=
  if lo < hi ∧ w < L.getD hi 0 - L.getD lo 0 then tpAdvance w L hi (lo + 1) else lo
termination_by hi - lo
decreasing_by omega

/-- Modelled from the spec: the main loop of the two-pointer scan; for each
hi the window count is hi - lo + 1 and the employee is flagged the first
time it reaches the threshold. -/
def tpAux (w t : Int) (L : List Int) (lo hi : Nat) : Bool :=
  if hi < L.length then
    let lo2 := tpAdvance w L hi lo
    if t ≤ ((hi - lo2 + 1 : Nat) : Int) then true
    else tpAux w t L lo2 (hi + 1)
  else false
termination_by L.length - hi
decreasing_by omega

/-- Modelled from the spec: the unbounded two-pointer sliding-window scan
of section 4.3 over one employee's sorted valid dates. -/
def twoPointerFlag (w t : Int) (L : List Int) : Bool :=
  tpAux w t L 0 0

/-- Alice of the spec's window-correctness scenario: Negative messages on
days 1, 5, 10, 20, 31. -/
def dfAlice : List Record :=
  [⟨"alice", some 1, .Negative, none⟩, ⟨"alice", some 5, .Negative, none⟩,
   ⟨"alice", some 10, .Negative, none⟩, ⟨"alice", some 20, .Negative, none⟩,
   ⟨"alice", some 31, .Negative, none⟩]

/-- Bob of the spec's non-flagging scenario: Negative messages on days
1, 40, 80, pairwise more than 30 days apart. -/
def dfBob : List Record :=
  [⟨"bob", some 1, .Negative, none⟩, ⟨"bob", some 40, .Negative, none⟩,
   ⟨"bob", some 80, .Negative, none⟩]

/-- Concrete input for the aggregation witness: two employees, two months,
one unparsable timestamp. -/
def dfAgg : List Record :=
  [⟨"a", some 0, .Positive, some "hi"⟩, ⟨"a", some 1, .Negative, none⟩,
   ⟨"b", some 0, .Positive, none⟩, ⟨"a", some 40, .Neutral, none⟩,
   ⟨"a", none, .Positive, none⟩]

/-- Four same-day Negative messages of one employee, used to show that a
window_days = 0 call returns an ordinary result instead of reporting an
InvalidParameter failure. -/
def dfSameDay : List Record :=
  [⟨"a", some 0, .Negative, none⟩, ⟨"a", some 0, .Negative, none⟩,
   ⟨"a", some 0, .Negative, none⟩, ⟨"a", some 0, .Negative, none⟩]

/-- One Negative and one Positive message, used for the threshold ≤ 0
witness. -/
def dfParam : List Record :=
  [⟨"a", some 5, .Negative, none⟩, ⟨"b", some 5, .Positive, none⟩]

/-- A group whose only message has a missing body. -/
def dfMissingBody : List Record :=
  [⟨"a", some 0, .Neutral, none⟩]

/-- A group with one missing and one present body of length 4. -/
def dfMixedBody : List Record :=
  [⟨"a", some 0, .Neutral, none⟩, ⟨"a", some 1, .Neutral, some "abcd"⟩]

/-- The same group as dfMixedBody with the missing-body record removed. -/
def dfOneBody : List Record :=
  [⟨"a", some 1, .Neutral, some "abcd"⟩]

/-- Input with a record whose timestamp failed to parse, next to valid
records of the same and of another employee. -/
def dfNullTs : List Record :=
  [⟨"a", some 1, .Negative, none⟩, ⟨"a", none, .Negative, none⟩,
   ⟨"a", some 10, .Negative, none⟩, ⟨"a", some 20, .Negative, none⟩,
   ⟨"a", some 25, .Negative, none⟩, ⟨"b", none, .Negative, none⟩,
   ⟨"b", some 3, .Positive, some "ok"⟩]

/-- First input of the noninterference witness. -/
def dfPosNeu1 : List Record :=
  [⟨"a", some 1, .Negative, none⟩, ⟨"a", some 2, .Positive, some "x"⟩,
   ⟨"a", some 3, .Negative, none⟩, ⟨"a", some 4, .Negative, none⟩,
   ⟨"a", some 5, .Negative, none⟩]

/-- Second input of the noninterference witness: same Negative records,
entirely different Positive and Neutral records. -/
def dfPosNeu2 : List Record :=
  [⟨"c", some 90, .Neutral, some "yy"⟩, ⟨"a", some 1, .Negative, none⟩,
   ⟨"a", some 3, .Negative, none⟩, ⟨"a", some 4, .Negative, none⟩,
   ⟨"a", some 5, .Negative, none⟩, ⟨"b", some 7, .Positive, none⟩]

/-! Helper lemmas about sorted integer lists and window counts. -/

theorem any_congr_mem {α : Type} {l : List α} {f g : α → Bool}
    (h : ∀ x ∈ l, f x = g x) : l.any f = l.any g := by
  induction l with
  | nil => rfl
  | cons x xs ih =>
    simp only [List.any_cons]
    rw [h x (List.mem_cons_self x xs), ih (fun y hy => h y (List.mem_cons_of_mem x hy))]

theorem countP_congr_mem {α : Type} {l : List α} {f g : α → Bool}
    (h : ∀ x ∈ l, f x = g x) : l.countP f = l.countP g := by
  induction l with
  | nil => rfl
  | cons x xs ih =>
    rw [List.countP_cons, List.countP_cons, h x (List.mem_cons_self x xs),
      ih (fun y hy => h y (List.mem_cons_of_mem x hy))]

theorem getD_le_getD_of_sorted {V : List Int}
    (hs : V.Sorted (fun a b : Int => a ≤ b)) {i j : Nat} (hij : i ≤ j)
    (hj : j < V.length) : V.getD i 0 ≤ V.getD j 0 := by
  rcases Nat.eq_or_lt_of_le hij with rfl | hlt
  · exact le_refl _
  · have hi : i < V.length := lt_trans hlt hj
    rw [List.getD_eq_getElem V 0 hi, List.getD_eq_getElem V 0 hj]
    exact hs.rel_get_of_lt (a := ⟨i, hi⟩) (b := ⟨j, hj⟩) hlt

theorem quadOf_length {V : List Int} {i : Nat} (h : i + 3 < V.length) :
    (quadOf V i).length = 4 := by
  simp only [quadOf, List.length_drop, List.length_take]
  omega

theorem quadOf_sublist (V : List Int) (i : Nat) : (quadOf V i).Sublist V :=
  (List.drop_sublist i (V.take (i + 4))).trans (List.take_sublist (i + 4) V)

theorem quadOf_getD {V : List Int} {i j : Nat} (h : i + 3 < V.length) (hj : j < 4) :
    (quadOf V i).getD j 0 = V.getD (i + j) 0 := by
  have hlen : (quadOf V i).length = 4 := quadOf_length h
  have hj2 : j < (quadOf V i).length := by omega
  have hij : i + j < V.length := by omega
  rw [List.getD_eq_getElem _ 0 hj2, List.getD_eq_getElem _ 0 hij]
  simp only [quadOf, List.getElem_drop, List.getElem_take]

theorem quadOf_bounds {V : List Int} (hs : V.Sorted (fun a b : Int => a ≤ b))
    {i : Nat} (h : i + 3 < V.length) :
    ∀ x ∈ quadOf V i, V.getD i 0 ≤ x ∧ x ≤ V.getD (i + 3) 0 := by
  intro x hx
  obtain ⟨j, hj, hxj⟩ := List.mem_iff_getElem.mp hx
  have hlen : (quadOf V i).length = 4 := quadOf_length h
  have hj4 : j < 4 := by omega
  have hgd : (quadOf V i).getD j 0 = x := by
    rw [List.getD_eq_getElem _ 0 hj]; exact hxj
  rw [quadOf_getD h hj4] at hgd
  constructor
  · rw [← hgd]; exact getD_le_getD_of_sorted hs (Nat.le_add_right i j) (by omega)
  · rw [← hgd]; exact getD_le_getD_of_sorted hs (by omega) h

theorem le_countP_of_quad {V : List Int} {p : Int → Bool} {i : Nat}
    (h : i + 3 < V.length) (hp : ∀ x ∈ quadOf V i, p x = true) :
    4 ≤ V.countP p := by
  have h1 : (quadOf V i).countP p = 4 := by
    rw [List.countP_eq_length.mpr hp, quadOf_length h]
  have h2 := (quadOf_sublist V i).countP_le p
  omega

theorem le_countP_slice_of_quad {V : List Int} {p : Int → Bool} {i : Nat}
    (h : i + 3 < V.length) (hp : ∀ x ∈ quadOf V i, p x = true) :
    4 ≤ ((V.take (i + 4)).drop (i + 3 - 10)).countP p := by
  have hsub : (quadOf V i).Sublist ((V.take (i + 4)).drop (i + 3 - 10)) := by
    have heq : quadOf V i = ((V.take (i + 4)).drop (i + 3 - 10)).drop (i - (i + 3 - 10)) := by
      unfold quadOf
      rw [List.drop_drop]
      congr 1
      omega
    rw [heq]
    exact List.drop_sublist _ _
  have h1 : (quadOf V i).countP p = 4 := by
    rw [List.countP_eq_length.mpr hp, quadOf_length h]
  have h2 := hsub.countP_le p
  omega

theorem filter_interval_prefix {A B : Int} :
    ∀ {V : List Int}, V.Sorted (fun a b : Int => a ≤ b) → (∀ x ∈ V, A ≤ x) →
      (V.filter (fun x => decide (A ≤ x ∧ x ≤ B))).IsPrefix V := by
  intro V
  induction V with
  | nil => intro _ _; simp
  | cons y tl ih =>
    intro hs hA
    rw [List.filter_cons]
    simp only [decide_eq_true_eq]
    by_cases hy : A ≤ y ∧ y ≤ B
    · rw [if_pos hy]
      obtain ⟨t, ht⟩ := ih hs.of_cons (fun x hx => hA x (List.mem_cons_of_mem y hx))
      exact ⟨t, by rw [List.cons_append, ht]⟩
    · have hnil : tl.filter (fun x => decide (A ≤ x ∧ x ≤ B)) = [] := by
        rw [List.filter_eq_nil_iff]
        intro x hx
        have hyx : y ≤ x := (List.sorted_cons.mp hs).1 x hx
        have hAy : A ≤ y := hA y (List.mem_cons_self y tl)
        simp only [decide_eq_true_eq]
        intro hcon
        exact hy ⟨hAy, by omega⟩
      rw [if_neg hy, hnil]
      exact List.nil_prefix

theorem dense_of_four_in_interval {w A B : Int} (hw : B - A ≤ w) :
    ∀ {V : List Int}, V.Sorted (fun a b : Int => a ≤ b) →
      4 ≤ V.countP (fun x => decide (A ≤ x ∧ x ≤ B)) → DenseW w V := by
  intro V
  induction V with
  | nil => intro _ h; simp [List.countP_nil] at h
  | cons y tl ih =>
    intro hs h4
    by_cases hy : A ≤ y ∧ y ≤ B
    · have hA : ∀ x ∈ y :: tl, A ≤ x := by
        intro x hx
        rcases List.mem_cons.mp hx with rfl | hx2
        · exact hy.1
        · exact le_trans hy.1 ((List.sorted_cons.mp hs).1 x hx2)
      obtain ⟨t, ht⟩ := filter_interval_prefix hs hA
      set F := (y :: tl).filter (fun x => decide (A ≤ x ∧ x ≤ B)) with hF
      have hlen : 4 ≤ F.length := by
        rw [hF, ← List.countP_eq_length_filter]
        exact h4
      have hlen2 : (y :: tl).length = F.length + t.length := by
        rw [← ht, List.length_append]
      have hmemF : ∀ j, j < F.length → A ≤ F.getD j 0 ∧ F.getD j 0 ≤ B := by
        intro j hj
        have hm : F.getD j 0 ∈ F := by
          rw [List.getD_eq_getElem _ 0 hj]
          exact List.getElem_mem _
        have := List.mem_filter.mp hm
        simpa using this.2
      have hgd : ∀ j, j < F.length → (y :: tl).getD j 0 = F.getD j 0 := by
        intro j hj
        rw [← ht, List.getD_append _ _ _ _ hj]
      refine ⟨0, by simp only [List.length_cons] at hlen2 ⊢; omega, ?_⟩
      rw [Nat.zero_add, hgd 3 (by omega), hgd 0 (by omega)]
      have h3 := hmemF 3 (by omega)
      have h0 := hmemF 0 (by omega)
      omega
    · have h4tl : 4 ≤ tl.countP (fun x => decide (A ≤ x ∧ x ≤ B)) := by
        rw [List.countP_cons] at h4
        simpa [hy] using h4
      obtain ⟨i, hi, hdi⟩ := ih hs.of_cons h4tl
      exact ⟨i + 1, by simp only [List.length_cons]; omega, by
        simpa [List.getD_cons_succ] using hdi⟩

theorem four_in_interval_of_dense {w : Int} {V : List Int}
    (hs : V.Sorted (fun a b : Int => a ≤ b)) (hd : DenseW w V) :
    ∃ a : Int, 4 ≤ V.countP (fun x => decide (a ≤ x ∧ x ≤ a + w)) := by
  obtain ⟨i, hi, hdi⟩ := hd
  refine ⟨V.getD (i + 3) 0 - w, le_countP_of_quad hi ?_⟩
  intro x hx
  obtain ⟨h1, h2⟩ := quadOf_bounds hs hi x hx
  simp only [decide_eq_true_eq]
  omega

theorem denseW_of_take {w : Int} {n : Nat} {V : List Int}
    (h : DenseW w (V.take n)) : DenseW w V := by
  obtain ⟨i, hi, hdi⟩ := h
  have hlen : (V.take n).length = min n V.length := List.length_take n V
  have hgd : ∀ j, j < (V.take n).length → (V.take n).getD j 0 = V.getD j 0 := by
    intro j hj
    have hjV : j < V.length := by rw [hlen] at hj; omega
    rw [List.getD_eq_getElem _ 0 hj, List.getD_eq_getElem _ 0 hjV]
    exact List.getElem_take V
  refine ⟨i, by rw [hlen] at hi; omega, ?_⟩
  rw [← hgd (i + 3) hi, ← hgd i (by omega)]
  exact hdi

theorem denseW_of_drop {w : Int} {s : Nat} {V : List Int}
    (h : DenseW w (V.drop s)) : DenseW w V := by
  obtain ⟨i, hi, hdi⟩ := h
  have hlen : (V.drop s).length = V.length - s := List.length_drop s V
  have hgd : ∀ j, j < (V.drop s).length → (V.drop s).getD j 0 = V.getD (s + j) 0 := by
    intro j hj
    have hjV : s + j < V.length := by rw [hlen] at hj; omega
    rw [List.getD_eq_getElem _ 0 hj, List.getD_eq_getElem _ 0 hjV]
    exact List.getElem_drop V
  refine ⟨s + i, by rw [hlen] at hi; omega, ?_⟩
  have e1 : s + i + 3 = s + (i + 3) := by omega
  rw [e1, ← hgd (i + 3) hi, ← hgd i (by omega)]
  exact hdi

theorem windowCount_map_some {w : Int} {V : List Int} {i : Nat} (hi : i < V.length) :
    windowCount w (V.map some) i =
      ((V.take (i + 1)).drop (i - 10)).countP
        (fun d => decide (V.getD i 0 - d ≤ w ∧ 0 ≤ V.getD i 0 - d)) := by
  have hg : (V.map some).getD i none = some (V.getD i 0) := by
    have hi2 : i < (V.map some).length := by rw [List.length_map]; exact hi
    rw [List.getD_eq_getElem _ _ hi2, List.getD_eq_getElem _ _ hi, List.getElem_map]
  unfold windowCount
  rw [hg, ← List.map_take, ← List.map_drop, List.filter_map, List.length_map,
    List.countP_eq_length_filter]
  congr 1

theorem windowCount_eq_zero_of_none {w : Int} {dates : List (Option Int)} {i : Nat}
    (h : dates.getD i none = none) : windowCount w dates i = 0 := by
  unfold windowCount
  rw [h]
  rw [show (fun d => diffOk w (none : Option Int) d) = fun _ => false from
    funext (fun d => by cases d <;> rfl)]
  simp

theorem windowCount_append {w : Int} {M R : List (Option Int)} {i : Nat}
    (hi : i < M.length) : windowCount w (M ++ R) i = windowCount w M i := by
  unfold windowCount
  rw [List.getD_append _ _ _ _ hi, List.take_append_of_le_length (by omega)]

theorem flaggedEmp_append_none {w t : Int} (ht : 0 < t) (V : List Int) (n : Nat) :
    flaggedEmp w t (V.map some ++ List.replicate n none) = flaggedEmp w t (V.map some) := by
  set M := V.map some with hM
  unfold flaggedEmp
  rw [List.length_append, List.length_replicate, List.range_add, List.any_append]
  have h2 : ((List.range n).map (fun j => M.length + j)).any
      (fun i => decide (t ≤ (windowCount w (M ++ List.replicate n none) i : Int))) = false := by
    rw [List.any_map, List.any_eq_false]
    intro j hj
    simp only [Function.comp]
    have hnone : (M ++ List.replicate n none).getD (M.length + j) none = none := by
      rw [List.getD_append_right _ _ _ _ (Nat.le_add_right _ _)]
      have e : M.length + j - M.length = j := by omega
      rw [e]
      rw [List.mem_range] at hj
      rw [List.getD_eq_getElem _ _ (by rw [List.length_replicate]; omega)]
      simp
    rw [windowCount_eq_zero_of_none hnone]
    simp only [Nat.cast_zero, decide_eq_true_eq]
    omega
  rw [h2, Bool.or_false]
  apply any_congr_mem
  intro i hi
  rw [List.mem_range] at hi
  rw [windowCount_append hi]

theorem flaggedEmp_map_some_iff_dense {w : Int} {V : List Int}
    (hs : V.Sorted (fun a b : Int => a ≤ b)) :
    flaggedEmp w 4 (V.map some) = true ↔ DenseW w V := by
  constructor
  · intro h
    unfold flaggedEmp at h
    rw [List.any_eq_true] at h
    obtain ⟨i, hmem, hp⟩ := h
    rw [List.mem_range, List.length_map] at hmem
    rw [decide_eq_true_eq, windowCount_map_some hmem] at hp
    set S := (V.take (i + 1)).drop (i - 10) with hS
    have hsorted : S.Sorted (fun a b : Int => a ≤ b) :=
      hs.sublist ((List.drop_sublist _ _).trans (List.take_sublist _ _))
    have hcnt : S.countP (fun d => decide (V.getD i 0 - d ≤ w ∧ 0 ≤ V.getD i 0 - d))
        = S.countP (fun x => decide (V.getD i 0 - w ≤ x ∧ x ≤ V.getD i 0)) :=
      countP_congr_mem (fun x _ => by rw [decide_eq_decide]; omega)
    have hp4 : 4 ≤ S.countP (fun x => decide (V.getD i 0 - w ≤ x ∧ x ≤ V.getD i 0)) := by
      rw [← hcnt]
      exact_mod_cast hp
    have hd : DenseW w S :=
      dense_of_four_in_interval (by omega) hsorted hp4
    rw [hS] at hd
    exact denseW_of_take (denseW_of_drop hd)
  · rintro ⟨i, hi, hdi⟩
    unfold flaggedEmp
    rw [List.any_eq_true]
    refine ⟨i + 3, ?_, ?_⟩
    · rw [List.mem_range, List.length_map]; exact hi
    · rw [decide_eq_true_eq, windowCount_map_some hi]
      have e4 : i + 3 + 1 = i + 4 := by omega
      rw [e4]
      have hq := le_countP_slice_of_quad
        (p := fun d => decide (V.getD (i + 3) 0 - d ≤ w ∧ 0 ≤ V.getD (i + 3) 0 - d)) hi
        (fun x hx => by
          obtain ⟨h1, h2⟩ := quadOf_bounds hs hi x hx
          simp only [decide_eq_true_eq]
          omega)
      exact_mod_cast hq

theorem tpAdvance_spec (w : Int) (L : List Int) (hi : Nat) :
    ∀ n lo, hi - lo = n → lo ≤ hi →
      lo ≤ tpAdvance w L hi lo ∧ tpAdvance w L hi lo ≤ hi ∧
      (tpAdvance w L hi lo = hi ∨ L.getD hi 0 - L.getD (tpAdvance w L hi lo) 0 ≤ w) ∧
      (∀ j, lo ≤ j → j < tpAdvance w L hi lo → w < L.getD hi 0 - L.getD j 0) := by
  intro n
  induction n with
  | zero =>
    intro lo hn hle
    have heq : lo = hi := by omega
    rw [tpAdvance, if_neg (fun hc => absurd hc.1 (by omega))]
    exact ⟨le_refl _, hle, Or.inl heq, fun j hj1 hj2 => absurd hj2 (by omega)⟩
  | succ n ih =>
    intro lo hn hle
    rw [tpAdvance]
    by_cases hc : lo < hi ∧ w < L.getD hi 0 - L.getD lo 0
    · rw [if_pos hc]
      obtain ⟨h1, h2, h3, h4⟩ := ih (lo + 1) (by omega) (by omega)
      refine ⟨by omega, h2, h3, ?_⟩
      intro j hj1 hj2
      rcases Nat.eq_or_lt_of_le hj1 with rfl | hlt
      · exact hc.2
      · exact h4 j hlt hj2
    · rw [if_neg hc]
      refine ⟨le_refl _, hle, ?_, fun j hj1 hj2 => absurd hj2 (by omega)⟩
      by_cases hlo : lo = hi
      · exact Or.inl hlo
      · right
        have hlt : lo < hi := by omega
        by_contra hcon
        exact hc ⟨hlt, by omega⟩

theorem tpAux_sound {w : Int} {L : List Int} (hs : L.Sorted (fun a b : Int => a ≤ b)) :
    ∀ n lo hi, L.length - hi = n → lo ≤ hi → tpAux w 4 L lo hi = true → DenseW w L := by
  intro n
  induction n with
  | zero =>
    intro lo hi hn hle htrue
    rw [tpAux, if_neg (by omega)] at htrue
    exact absurd htrue (by simp)
  | succ n ih =>
    intro lo hi hn hle htrue
    rw [tpAux] at htrue
    have hhi : hi < L.length := by omega
    rw [if_pos hhi] at htrue
    obtain ⟨h1, h2, h3, h4⟩ := tpAdvance_spec w L hi (hi - lo) lo rfl hle
    set lo2 := tpAdvance w L hi lo with hlo2
    by_cases hflag : (4:Int) ≤ ((hi - lo2 + 1 : Nat) : Int)
    · have hcnt : lo2 + 3 ≤ hi := by omega
      have hdiff : L.getD hi 0 - L.getD lo2 0 ≤ w := by
        rcases h3 with heq | hle2
        · omega
        · exact hle2
      refine ⟨lo2, by omega, ?_⟩
      have hmono : L.getD (lo2 + 3) 0 ≤ L.getD hi 0 :=
        getD_le_getD_of_sorted hs (by omega) hhi
      omega
    · rw [if_neg hflag] at htrue
      exact ih lo2 (hi + 1) (by omega) (by omega) htrue

theorem tpAux_complete {w : Int} {L : List Int} (hs : L.Sorted (fun a b : Int => a ≤ b))
    {i : Nat} (hi : i + 3 < L.length) (hdi : L.getD (i + 3) 0 - L.getD i 0 ≤ w) :
    ∀ n lo hi2, i + 4 - hi2 = n → hi2 ≤ i + 3 → lo ≤ hi2 →
      (∀ j, j < lo → w < L.getD hi2 0 - L.getD j 0) → tpAux w 4 L lo hi2 = true := by
  intro n
  induction n with
  | zero =>
    intro lo hi2 hn hle2 _ _
    exact absurd hle2 (by omega)
  | succ n ih =>
    intro lo hi2 hn hle2 hlo hinv
    rw [tpAux]
    have hhi2 : hi2 < L.length := by omega
    rw [if_pos hhi2]
    obtain ⟨h1, h2, h3, h4⟩ := tpAdvance_spec w L hi2 (hi2 - lo) lo rfl hlo
    set lo2 := tpAdvance w L hi2 lo with hlo2
    have hinv2 : ∀ j, j < lo2 → w < L.getD hi2 0 - L.getD j 0 := by
      intro j hj
      by_cases hjlo : j < lo
      · exact hinv j hjlo
      · exact h4 j (by omega) hj
    by_cases hflag : (4:Int) ≤ ((hi2 - lo2 + 1 : Nat) : Int)
    · rw [if_pos hflag]
    · rw [if_neg hflag]
      have hne : hi2 ≠ i + 3 := by
        intro heq
        subst heq
        have hilo2 : lo2 ≤ i := by
          by_contra hcon
          exact absurd (hinv2 i (by omega)) (by omega)
        exact hflag (by omega)
      refine ih lo2 (hi2 + 1) (by omega) (by omega) (by omega) ?_
      intro j hj
      have hstep := hinv2 j hj
      have hmono : L.getD hi2 0 ≤ L.getD (hi2 + 1) 0 :=
        getD_le_getD_of_sorted hs (by omega) (by omega)
      omega

theorem twoPointerFlag_iff_dense {w : Int} {L : List Int}
    (hs : L.Sorted (fun a b : Int => a ≤ b)) :
    twoPointerFlag w 4 L = true ↔ DenseW w L := by
  constructor
  · intro h
    exact tpAux_sound hs L.length 0 0 (by omega) (by omega) h
  · rintro ⟨i, hi, hdi⟩
    exact tpAux_complete hs hi hdi (i + 4) 0 0 (by omega) (by omega) (by omega)
      (fun j hj => absurd hj (by omega))

theorem countP_filterMap_date (p : Int → Bool) (l : List Record) :
    (l.filterMap (fun r => r.date)).countP p
      = l.countP (fun r => match r.date with | some d => p d | none => false) := by
  induction l with
  | nil => rfl
  | cons r tl ih =>
    cases hd : r.date with
    | none => simp [List.filterMap_cons, hd, List.countP_cons, ih]
    | some d => simp [List.filterMap_cons, hd, List.countP_cons, ih]

theorem flaggedEmp_negDs_iff {w : Int} (negs : List Record) (e : String) :
    flaggedEmp w 4 (negDsCore negs e) = true ↔
      ∃ a : Int, 4 ≤ (negs.filter (fun r => decide (r.employee = e))).countP
        (fun r => match r.date with | some d => decide (a ≤ d ∧ d ≤ a + w) | none => false) := by
  unfold negDsCore
  set rs := negs.filter (fun r => decide (r.employee = e)) with hrs
  set V := List.insertionSort (fun a b : Int => a ≤ b) (rs.filterMap (fun r => r.date)) with hV
  have hsV : V.Sorted (fun a b : Int => a ≤ b) := List.sorted_insertionSort _ _
  have hperm := List.perm_insertionSort (fun a b : Int => a ≤ b) (rs.filterMap (fun r => r.date))
  rw [List.map_const', flaggedEmp_append_none (by omega) V _,
    flaggedEmp_map_some_iff_dense hsV]
  constructor
  · intro hd
    obtain ⟨a, ha⟩ := four_in_interval_of_dense hsV hd
    refine ⟨a, ?_⟩
    rw [← countP_filterMap_date, ← hperm.countP_eq]
    exact ha
  · rintro ⟨a, ha⟩
    apply dense_of_four_in_interval (A := a) (B := a + w) (by omega) hsV
    rw [hperm.countP_eq, countP_filterMap_date]
    exact ha

/-- Claim C1: with window_days 30 and threshold 4, the flight-risk
computation flags an employee iff at least four of that employee's
Negative-labelled records carry parsed timestamps lying inside one
inclusive window from some day a to day a + 30; an employee with fewer
than four Negative records in total is never flagged. -/
theorem c1_flight_risk_characterization (df : List Record) (e : String) :
    (e ∈ flight_risk 30 4 df ↔
      ∃ a : Int, 4 ≤ (df.filter (fun r => isNegOf e r && inWin a 30 r)).length) ∧
    ((df.filter (isNegOf e)).length < 4 → e ∉ flight_risk 30 4 df) := by
  have hcount : ∀ a : Int,
      ((df_neg df).filter (fun r => decide (r.employee = e))).countP
        (fun r => match r.date with | some d => decide (a ≤ d ∧ d ≤ a + 30) | none => false)
      = (df.filter (fun r => isNegOf e r && inWin a 30 r)).length := by
    intro a
    rw [← List.countP_eq_length_filter]
    unfold df_neg
    rw [List.countP_filter, List.countP_filter]
    apply countP_congr_mem
    intro r _
    cases hd : r.date <;>
      simp [isNegOf, inWin, hd, Bool.decide_and, Bool.and_comm, Bool.and_left_comm, Bool.and_assoc]
  have hmain : e ∈ flight_risk 30 4 df ↔
      ∃ a : Int, 4 ≤ (df.filter (fun r => isNegOf e r && inWin a 30 r)).length := by
    unfold flight_risk flight_riskCore
    rw [List.mem_filter]
    rw [flaggedEmp_negDs_iff (w := 30) (df_neg df) e]
    constructor
    · rintro ⟨_, a, ha⟩
      exact ⟨a, by rw [← hcount a]; exact ha⟩
    · rintro ⟨a, ha⟩
      have hpos : 0 < (df.filter (fun r => isNegOf e r && inWin a 30 r)).length := by omega
      rw [← List.countP_eq_length_filter] at hpos
      obtain ⟨r, hrmem, hrp⟩ := List.countP_pos_iff.mp hpos
      rw [Bool.and_eq_true] at hrp
      have hneg : r.label = Label.Negative ∧ r.employee = e := by
        have h1 := hrp.1
        rwa [isNegOf, decide_eq_true_eq] at h1
      refine ⟨?_, a, by rw [hcount a]; exact ha⟩
      rw [List.mem_dedup, List.mem_map]
      refine ⟨r, ?_, hneg.2⟩
      unfold df_neg
      rw [List.mem_filter]
      exact ⟨hrmem, by rw [decide_eq_true_eq]; exact hneg.1⟩
  refine ⟨hmain, ?_⟩
  intro hlen hmem
  obtain ⟨a, ha⟩ := hmain.mp hmem
  have hmono : (df.filter (fun r => isNegOf e r && inWin a 30 r)).length
      ≤ (df.filter (isNegOf e)).length := by
    rw [← List.countP_eq_length_filter, ← List.countP_eq_length_filter]
    exact List.countP_mono_left (fun r _ hr => ((Bool.and_eq_true _ _ ▸ hr : _ ∧ _)).1)
  omega

/-- Witness for C1 at the spec's concrete scenarios: alice (Negative on
days 1, 5, 10, 20, 31) is flagged via the window starting on day 1, and
bob (days 1, 40, 80; fewer than four Negative records) is not flagged. -/
theorem c1_witness :
    "alice" ∈ flight_risk 30 4 dfAlice ∧ "bob" ∉ flight_risk 30 4 dfBob :=
  ⟨(c1_flight_risk_characterization dfAlice "alice").1.mpr ⟨1, by decide⟩,
   (c1_flight_risk_characterization dfBob "bob").2 (by decide)⟩

/-- Claim C4: on every sorted per-employee sequence of Negative-message
timestamps, the implemented bounded-lookback scan (matches counted only
among the eleven most recent records) reaches the same flagged decision as
the spec's unbounded two-pointer sliding-window scan with window_days 30
and threshold 4. -/
theorem c4_bounded_lookback_equiv_two_pointer (L : List Int)
    (hs : L.Sorted (fun a b : Int => a ≤ b)) :
    flaggedEmp 30 4 (L.map some) = twoPointerFlag 30 4 L := by
  by_cases hb : flaggedEmp 30 4 (L.map some) = true
  · rw [hb]
    exact ((twoPointerFlag_iff_dense hs).mpr ((flaggedEmp_map_some_iff_dense hs).mp hb)).symm
  · have hb2 : ¬ twoPointerFlag 30 4 L = true :=
      fun hc => hb ((flaggedEmp_map_some_iff_dense hs).mpr ((twoPointerFlag_iff_dense hs).mp hc))
    rw [Bool.not_eq_true] at hb hb2
    rw [hb, hb2]

/-- Witness for C4: the two scans agree on the concrete sorted sequence
1, 5, 10, 20, 31. -/
theorem c4_witness :
    flaggedEmp 30 4 ([1, 5, 10, 20, 31].map some) = twoPointerFlag 30 4 [1, 5, 10, 20, 31] :=
  c4_bounded_lookback_equiv_two_pointer _ (by decide)

/-- Claim C7: two Negative messages exactly 30 days apart are counted in
the same window (the count at the later message is 2), while messages 31
days apart share no window (the count is 1 at either message). -/
theorem c7_window_boundary_inclusive (a : Int) :
    windowCount 30 [some a, some (a + 30)] 1 = 2 ∧
    windowCount 30 [some a, some (a + 31)] 1 = 1 ∧
    windowCount 30 [some a, some (a + 31)] 0 = 1 := by
  refine ⟨?_, ?_, ?_⟩ <;> simp [windowCount, diffOk, List.filter]

/-- Counterexample for C5: detect invoked with window_days 0 and
threshold 4 (the spec's InvalidParameter scenario) returns the plain
result list containing employee a; no failure of any kind is reported,
because the implementation performs no parameter validation at all. -/
theorem c5_counterexample : flight_risk 0 4 dfSameDay = ["a"] := by decide

/-- Amended C5: the implementation validates nothing; in particular, for
any threshold ≤ 0 every employee owning at least one Negative record is
flagged, whatever the window width — a silently meaningless result rather
than a reported InvalidParameter failure. -/
theorem c5_no_validation (df : List Record) (w t : Int) (ht : t ≤ 0) :
    flight_risk w t df = ((df_neg df).map (fun r => r.employee)).dedup := by
  unfold flight_risk flight_riskCore
  apply List.filter_eq_self.mpr
  intro e he
  rw [List.mem_dedup, List.mem_map] at he
  obtain ⟨r, hr, hre⟩ := he
  have hmem : r ∈ (df_neg df).filter (fun rr => decide (rr.employee = e)) := by
    rw [List.mem_filter]
    exact ⟨hr, by rw [decide_eq_true_eq]; exact hre⟩
  have hne : negDsCore (df_neg df) e ≠ [] := by
    unfold negDsCore
    intro hcon
    rw [List.append_eq_nil] at hcon
    obtain ⟨h1, h2⟩ := hcon
    rw [List.map_eq_nil_iff] at h1 h2
    cases hd : r.date with
    | some d =>
      have hdm : d ∈ ((df_neg df).filter
          (fun rr => decide (rr.employee = e))).filterMap (fun rr => rr.date) :=
        List.mem_filterMap.mpr ⟨r, hmem, hd⟩
      have hp := List.perm_insertionSort (fun a b : Int => a ≤ b)
        (((df_neg df).filter (fun rr => decide (rr.employee = e))).filterMap
          (fun rr => rr.date))
      rw [h1] at hp
      have hl : ((df_neg df).filter (fun rr => decide (rr.employee = e))).filterMap
          (fun rr => rr.date) = [] :=
        List.length_eq_zero.mp (hp.length_eq.symm)
      rw [hl] at hdm
      exact absurd hdm (List.not_mem_nil d)
    | none =>
      have hdm : r ∈ ((df_neg df).filter (fun rr => decide (rr.employee = e))).filter
          (fun rr => decide (rr.date = none)) := by
        rw [List.mem_filter]
        exact ⟨hmem, by rw [decide_eq_true_eq]; exact hd⟩
      rw [h2] at hdm
      exact absurd hdm (List.not_mem_nil r)
  unfold flaggedEmp
  rw [List.any_eq_true]
  refine ⟨0, ?_, ?_⟩
  · rw [List.mem_range]
    exact List.length_pos.mpr hne
  · rw [decide_eq_true_eq]
    have hnn : (0:Int) ≤ (windowCount w (negDsCore (df_neg df) e) 0 : Int) := Int.ofNat_nonneg _
    omega

/-- Witness for the amended C5: with threshold 0 the result is exactly the
deduplicated list of employees having a Negative record. -/
theorem c5_witness : flight_risk 30 0 dfParam = ["a"] := by
  rw [c5_no_validation dfParam 30 0 (by omega)]
  decide

theorem countMonth_cons (m : Int × Int) (r : MonthlyScore) (l : List MonthlyScore) :
    countMonth m (r :: l) = (if r.month = m then 1 else 0) + countMonth m l := by
  simp only [countMonth, List.filter_cons, decide_eq_true_eq]
  split_ifs with h
  · rw [List.length_cons]; omega
  · omega

theorem groupHead_sublist (k : Nat) :
    ∀ (l seen : List MonthlyScore), (groupHead k seen l).Sublist l := by
  intro l
  induction l with
  | nil => intro seen; simp [groupHead]
  | cons r rest ih =>
    intro seen
    unfold groupHead
    by_cases hc : countMonth r.month seen < k
    · rw [if_pos hc]
      exact (ih (r :: seen)).cons₂ r
    · rw [if_neg hc]
      exact (ih (r :: seen)).cons r

theorem groupHead_countMonth (k : Nat) (m : Int × Int) :
    ∀ (rest seen : List MonthlyScore),
      countMonth m (groupHead k seen rest)
        = min k (countMonth m seen + countMonth m rest) - min k (countMonth m seen) := by
  intro rest
  induction rest with
  | nil =>
    intro seen
    simp [groupHead, countMonth]
  | cons r rest ih =>
    intro seen
    unfold groupHead
    rcases eq_or_ne r.month m with hm | hm
    · subst hm
      by_cases hc : countMonth r.month seen < k
      · rw [if_pos hc, countMonth_cons, ih (r :: seen), countMonth_cons r.month r seen,
          countMonth_cons r.month r rest]
        simp only [eq_self_iff_true, if_true]
        omega
      · rw [if_neg hc, ih (r :: seen), countMonth_cons r.month r seen,
          countMonth_cons r.month r rest]
        simp only [eq_self_iff_true, if_true]
        omega
    · by_cases hc : countMonth r.month seen < k
      · rw [if_pos hc, countMonth_cons, ih (r :: seen), countMonth_cons m r seen,
          countMonth_cons m r rest, if_neg hm]
        omega
      · rw [if_neg hc, ih (r :: seen), countMonth_cons m r seen,
          countMonth_cons m r rest, if_neg hm]
        omega

/-- Claim C9: for every month, the ranker returns min k (number of that
month's rows) entries — a month with fewer than k employees contributes
all of them, with no padding and no error, in either direction. -/
theorem c9_top_k_shortfall (scores : List MonthlyScore) (k : Nat) (d : Direction)
    (m : Int × Int) :
    countMonth m (rank_top k d scores) = min k (countMonth m scores) := by
  unfold rank_top
  rw [groupHead_countMonth]
  have hc : countMonth m (List.insertionSort (leDir d) scores) = countMonth m scores := by
    unfold countMonth
    rw [← List.countP_eq_length_filter, ← List.countP_eq_length_filter]
    exact (List.perm_insertionSort (leDir d) scores).countP_eq _
  have h0 : countMonth m ([] : List MonthlyScore) = 0 := rfl
  rw [h0, hc]
  omega

theorem le_employee_of_leDir {d : Direction} {x y : MonthlyScore}
    (h : leDir d x y) (hm : x.month = y.month) (hsc : x.score = y.score) :
    x.employee ≤ y.employee := by
  have hm1 : x.month.1 = y.month.1 := congrArg Prod.fst hm
  have hm2 : x.month.2 = y.month.2 := congrArg Prod.snd hm
  cases d <;>
  · simp only [leDir, keyBest, keyWorst, Prod.Lex.le_iff] at h
    rcases h with h1 | ⟨e1, h2 | ⟨e2, h3 | ⟨e3, hemp⟩⟩⟩
    · omega
    · omega
    · omega
    · exact hemp

/-- Claim C2: in both ranking directions, any two rows of the output that
share a month and a score appear with employee ids ascending (the
secondary key is not reversed for the worst direction), and re-running
the ranker on the same input yields the identical ordered output. -/
theorem c2_tie_break_and_determinism (scores : List MonthlyScore) (k : Nat) (d : Direction) :
    (rank_top k d scores).Pairwise
      (fun x y => x.month = y.month → x.score = y.score → x.employee ≤ y.employee) ∧
    rank_top k d scores = rank_top k d scores := by
  refine ⟨?_, rfl⟩
  have hsorted : (List.insertionSort (leDir d) scores).Pairwise (leDir d) :=
    List.sorted_insertionSort (leDir d) scores
  have hp : (rank_top k d scores).Pairwise (leDir d) :=
    hsorted.sublist (groupHead_sublist k (List.insertionSort (leDir d) scores) [])
  exact hp.imp (fun h hm hsc => le_employee_of_leDir h hm hsc)

/-- Claim C10: two inputs agreeing on their Negative-labelled rows (and
arbitrary elsewhere) produce the same flagged-employee set; Positive and
Neutral records never influence any flag. -/
theorem c10_negative_only_noninterference (df1 df2 : List Record) (w t : Int)
    (h : df_neg df1 = df_neg df2) :
    ∀ e, e ∈ flight_risk w t df1 ↔ e ∈ flight_risk w t df2 := by
  intro e
  unfold flight_risk
  rw [h]

/-- Witness for C10: two concrete inputs with identical Negative records
but entirely different Positive and Neutral records flag employee a
identically. -/
theorem c10_witness :
    df_neg dfPosNeu1 = df_neg dfPosNeu2 ∧
    ("a" ∈ flight_risk 30 4 dfPosNeu1 ↔ "a" ∈ flight_risk 30 4 dfPosNeu2) :=
  ⟨by decide, c10_negative_only_noninterference dfPosNeu1 dfPosNeu2 30 4 (by decide) "a"⟩

theorem filter_comm_rec (l : List Record) (p q : Record → Bool) :
    (l.filter p).filter q = (l.filter q).filter p := by
  rw [List.filter_filter, List.filter_filter]
  apply List.filter_congr
  intro r _
  rw [Bool.and_comm]

theorem filterMap_date_filter_ne_none (l : List Record) :
    (l.filter (fun r => decide (r.date ≠ none))).filterMap (fun r => r.date)
      = l.filterMap (fun r => r.date) := by
  induction l with
  | nil => rfl
  | cons r tl ih =>
    by_cases hd : r.date = none
    · simpa [List.filter_cons, hd, List.filterMap_cons] using ih
    · obtain ⟨d, hd2⟩ := Option.ne_none_iff_exists.mp hd
      simpa [List.filter_cons, hd, List.filterMap_cons, ← hd2] using ih

theorem filter_date_none_of_ne (l : List Record) :
    (l.filter (fun r => decide (r.date ≠ none))).filter
      (fun r => decide (r.date = none)) = [] := by
  rw [List.filter_eq_nil_iff]
  intro r hr
  rw [List.mem_filter] at hr
  have h2 := hr.2
  rw [decide_eq_true_eq] at h2
  simp [h2]

theorem negDsCore_filter_ne_none (negs : List Record) (e : String) :
    negDsCore (negs.filter (fun r => decide (r.date ≠ none))) e
      = (List.insertionSort (fun a b : Int => a ≤ b)
          ((negs.filter (fun r => decide (r.employee = e))).filterMap
            (fun r => r.date))).map some := by
  unfold negDsCore
  rw [filter_comm_rec, filterMap_date_filter_ne_none, filter_date_none_of_ne]
  simp

theorem flaggedEmp_negDs_filter_ne_none {w t : Int} (ht : 0 < t)
    (negs : List Record) (e : String) :
    flaggedEmp w t (negDsCore (negs.filter (fun r => decide (r.date ≠ none))) e)
      = flaggedEmp w t (negDsCore negs e) := by
  rw [negDsCore_filter_ne_none]
  unfold negDsCore
  rw [List.map_const', flaggedEmp_append_none ht]

theorem exists_valid_of_flagged {w t : Int} (ht : 0 < t) (negs : List Record)
    (e : String) (h : flaggedEmp w t (negDsCore negs e) = true) :
    ∃ r ∈ negs, r.employee = e ∧ r.date ≠ none := by
  unfold negDsCore at h
  rw [List.map_const', flaggedEmp_append_none ht] at h
  unfold flaggedEmp at h
  rw [List.any_eq_true] at h
  obtain ⟨i, hmem, _⟩ := h
  rw [List.mem_range, List.length_map] at hmem
  have hV : 0 < (List.insertionSort (fun a b : Int => a ≤ b)
      ((negs.filter (fun r => decide (r.employee = e))).filterMap
        (fun r => r.date))).length := by omega
  rw [List.length_insertionSort] at hV
  obtain ⟨d, hd⟩ := List.exists_mem_of_length_pos hV
  rw [List.mem_filterMap] at hd
  obtain ⟨r, hr, hrd⟩ := hd
  rw [List.mem_filter] at hr
  exact ⟨r, hr.1, by simpa using hr.2, by rw [hrd]; simp⟩

/-- Claim C8: a record whose timestamp failed to parse contributes to no
(employee, month) group of the monthly aggregation, changes no flight-risk
decision, and any window comparison against such a record is simply false;
removing all such records leaves both outputs unchanged. -/
theorem c8_malformed_timestamp_recovery (df : List Record) :
    monthly_scores (df.filter (fun r => decide (r.date ≠ none))) = monthly_scores df ∧
    (∀ e, e ∈ flight_risk 30 4 (df.filter (fun r => decide (r.date ≠ none)))
        ↔ e ∈ flight_risk 30 4 df) ∧
    (∀ (w : Int) (d : Option Int), diffOk w d none = false ∧ diffOk w none d = false) := by
  refine ⟨?_, ?_, ?_⟩
  · have hfm : (df.filter (fun r => decide (r.date ≠ none))).filterMap recKey
        = df.filterMap recKey := by
      induction df with
      | nil => rfl
      | cons r tl ih =>
        by_cases hd : r.date = none
        · have hk : recKey r = none := by rw [recKey, hd]; rfl
          simpa [List.filter_cons, hd, List.filterMap_cons, hk] using ih
        · obtain ⟨d, hd2⟩ := Option.ne_none_iff_exists.mp hd
          simpa [List.filter_cons, hd, List.filterMap_cons, recKey, ← hd2] using ih
    have hsc : ∀ k : String × Int × Int,
        (df.filter (fun r => decide (r.date ≠ none))).filter
            (fun r => decide (recKey r = some k))
          = df.filter (fun r => decide (recKey r = some k)) := by
      intro k
      rw [filter_comm_rec]
      apply List.filter_eq_self.mpr
      intro r hr
      rw [List.mem_filter] at hr
      have h2 := hr.2
      rw [decide_eq_true_eq] at h2
      rw [decide_eq_true_eq]
      intro hcon
      rw [recKey, hcon] at h2
      simp at h2
    unfold monthly_scores
    rw [hfm]
    apply List.map_congr_left
    intro k _
    rw [hsc k]
  · intro e
    unfold flight_risk flight_riskCore
    have hdn : df_neg (df.filter (fun r => decide (r.date ≠ none)))
        = (df_neg df).filter (fun r => decide (r.date ≠ none)) := by
      unfold df_neg
      exact filter_comm_rec df _ _
    rw [hdn, List.mem_filter, List.mem_filter,
      flaggedEmp_negDs_filter_ne_none (by omega) (df_neg df) e]
    constructor
    · rintro ⟨hc, hf⟩
      refine ⟨?_, hf⟩
      rw [List.mem_dedup, List.mem_map] at hc ⊢
      obtain ⟨r, hr, hre⟩ := hc
      rw [List.mem_filter] at hr
      exact ⟨r, hr.1, hre⟩
    · rintro ⟨hc, hf⟩
      refine ⟨?_, hf⟩
      obtain ⟨r, hr, hre, hrd⟩ := exists_valid_of_flagged (by omega) (df_neg df) e hf
      rw [List.mem_dedup, List.mem_map]
      refine ⟨r, ?_, hre⟩
      rw [List.mem_filter]
      exact ⟨hr, by simpa using hrd⟩
  · intro w d
    exact ⟨by cases d <;> rfl, rfl⟩

/-- Witness for C8: on a concrete input holding two unparsable-timestamp
records, dropping those records changes neither the aggregation nor the
flag set (employee a stays flagged through the window 10..25 plus day 1
being outside, b stays unflagged). -/
theorem c8_witness :
    monthly_scores (dfNullTs.filter (fun r => decide (r.date ≠ none)))
        = monthly_scores dfNullTs ∧
    ("a" ∈ flight_risk 30 4 (dfNullTs.filter (fun r => decide (r.date ≠ none)))
        ↔ "a" ∈ flight_risk 30 4 dfNullTs) :=
  ⟨(c8_malformed_timestamp_recovery dfNullTs).1,
   (c8_malformed_timestamp_recovery dfNullTs).2.1 "a"⟩

theorem length_filter_eq_one_of_nodup {α : Type} [DecidableEq α] {l : List α} {x : α}
    (hnd : l.Nodup) (hx : x ∈ l) :
    (l.filter (fun y => decide (y = x))).length = 1 := by
  induction l with
  | nil => cases hx
  | cons a tl ih =>
    rw [List.nodup_cons] at hnd
    rw [List.filter_cons]
    rcases List.mem_cons.mp hx with hax | hx2
    · rw [if_pos (by simp [hax])]
      have hnil : tl.filter (fun y => decide (y = x)) = [] := by
        rw [List.filter_eq_nil_iff]
        intro y hy
        simp only [decide_eq_true_eq]
        intro hcon
        rw [hcon, hax] at hy
        exact hnd.1 hy
      rw [hnil]
      rfl
    · rw [if_neg (by
        simp only [decide_eq_true_eq]
        intro hcon
        subst hcon
        exact hnd.1 hx2)]
      exact ih hnd.2 hx2

/-- Claim C3: every (employee, month) pair having at least one
parsable-timestamp record yields exactly one monthly_scores row, and that
row's score is the sum of the Positive = +1, Negative = -1, Neutral = 0
contributions over precisely that employee's records of that month — no
double counting, nothing from other employees or months. -/
theorem c3_aggregation_exactness (df : List Record) (e : String) (m : Int × Int)
    (h : ∃ r ∈ df, recKey r = some (e, m)) :
    ((monthly_scores df).filter
        (fun s => decide (s.employee = e ∧ s.month = m))).length = 1 ∧
    ∀ s ∈ monthly_scores df, s.employee = e → s.month = m →
      s.score = ((df.filter (fun r => decide (recKey r = some (e, m)))).map
        (fun r => score_mapper r.label)).sum := by
  have hkeys : ((e, m) : String × Int × Int) ∈ (df.filterMap recKey).dedup := by
    rw [List.mem_dedup, List.mem_filterMap]
    obtain ⟨r, hr, hk⟩ := h
    exact ⟨r, hr, hk⟩
  constructor
  · unfold monthly_scores
    rw [List.filter_map, List.length_map]
    have hcong : ∀ kk ∈ (df.filterMap recKey).dedup,
        ((fun s => decide (s.employee = e ∧ s.month = m)) ∘ fun k =>
          ({ employee := k.1, month := k.2,
             score := ((df.filter (fun r => decide (recKey r = some k))).map
               (fun r => score_mapper r.label)).sum } : MonthlyScore)) kk
          = decide (kk = (e, m)) := by
      intro kk _
      simp only [Function.comp, decide_eq_decide]
      constructor
      · rintro ⟨h1, h2⟩
        rw [Prod.ext_iff]
        exact ⟨h1, h2⟩
      · rintro rfl
        exact ⟨rfl, rfl⟩
    rw [List.filter_congr hcong]
    exact length_filter_eq_one_of_nodup (List.nodup_dedup _) hkeys
  · intro s hs hse hsm
    unfold monthly_scores at hs
    rw [List.mem_map] at hs
    obtain ⟨k, _, hks⟩ := hs
    have hk1 : k.1 = e := by rw [← hks] at hse; exact hse
    have hk2 : k.2 = m := by rw [← hks] at hsm; exact hsm
    have hkem : k = (e, m) := by rw [Prod.ext_iff]; exact ⟨hk1, hk2⟩
    rw [← hks]
    subst hkem
    rfl

/-- Witness for C3 at a concrete frame with two employees, two months and
one unparsable timestamp: employee a in January 1970 has exactly one row,
whose score sums that group's +1 and -1 contributions. -/
theorem c3_witness :
    ((monthly_scores dfAgg).filter
        (fun s => decide (s.employee = "a" ∧ s.month = (1970, 1)))).length = 1 ∧
    ∀ s ∈ monthly_scores dfAgg, s.employee = "a" → s.month = (1970, 1) →
      s.score = ((dfAgg.filter
          (fun r => decide (recKey r = some ("a", 1970, 1)))).map
        (fun r => score_mapper r.label)).sum :=
  c3_aggregation_exactness dfAgg "a" (1970, 1) (by decide)

/-- Counterexample for C6: the features row of employee a, whose only
message has a missing body, carries avg_length none (the model of pandas
NaN) rather than the claimed 0; moreover the mean ignores missing bodies
entirely: adding a missing-body record to a group leaves avg_length
unchanged instead of pulling the mean toward 0. -/
theorem c6_counterexample :
    (features dfMissingBody).map (fun f => f.avg_length) = [none] ∧
    (none : Option ℚ) ≠ some 0 ∧
    (features dfMixedBody).map (fun f => f.avg_length)
      = (features dfOneBody).map (fun f => f.avg_length) := by
  refine ⟨by decide, by decide, ?_⟩
  rfl

/-- Amended C6: avg_length is the arithmetic mean of the group's
non-missing message lengths; a record with a missing body is excluded from
the mean, not treated as length 0, and a group whose bodies are all
missing reports NaN (modelled none), not 0. -/
theorem c6_avg_length_skips_missing (df : List Record) (k : String × Int × Int)
    (f : FeatureRow) (hf : f ∈ features df) (he : f.employee = k.1)
    (hm : f.month = k.2) :
    ((groupRecords df k).filterMap (fun r => r.body.map (fun b => b.length)) = [] →
      f.avg_length = none) ∧
    (∀ ls, (groupRecords df k).filterMap (fun r => r.body.map (fun b => b.length)) = ls →
      ls ≠ [] →
      f.avg_length = some ((ls.map (Nat.cast : Nat → ℚ)).sum / (ls.length : ℚ))) := by
  unfold features at hf
  rw [List.mem_map] at hf
  obtain ⟨kk, _, hks⟩ := hf
  have hk1 : kk.1 = k.1 := by rw [← hks] at he; exact he
  have hk2 : kk.2 = k.2 := by rw [← hks] at hm; exact hm
  have hkem : kk = k := by rw [Prod.ext_iff]; exact ⟨hk1, hk2⟩
  subst hkem
  have hproj : f.avg_length =
      if ((groupRecords df kk).filterMap
          (fun r => r.body.map (fun b => b.length))).length = 0 then none
      else some
        ((((groupRecords df kk).filterMap
            (fun r => r.body.map (fun b => b.length))).map
          (Nat.cast : Nat → ℚ)).sum
        / (((groupRecords df kk).filterMap
            (fun r => r.body.map (fun b => b.length))).length : ℚ)) := by
    rw [← hks]
  constructor
  · intro hnil
    rw [hproj, if_pos (by rw [hnil]; rfl)]
  · intro ls hls hne
    rw [hproj, if_neg (by rw [hls, List.length_eq_zero]; exact hne), hls]

/-- Witness for the amended C6: the all-missing group of dfMissingBody
yields the features row with avg_length none. -/
theorem c6_witness :
    (⟨"a", (1970, 1), 0, none, 0⟩ : FeatureRow) ∈ features dfMissingBody ∧
    (⟨"a", (1970, 1), 0, none, 0⟩ : FeatureRow).avg_length = none :=
  ⟨by decide,
   (c6_avg_length_skips_missing dfMissingBody ("a", 1970, 1)
      ⟨"a", (1970, 1), 0, none, 0⟩ (by decide) rfl rfl).1 (by decide)⟩
